import Mathlib

/-
Verification of the `jevt` JSON field-extraction plugin
(src/plugins/jevt/jevt.go) against its natural-language specification.

The Go source is shallowly embedded below:

* `pluginContext` mirrors the Go struct of the same name (jevt.go lines
  34-39): the cached parsed document `jdata` (nil-able pointer modelled as
  `Option JValue`), the cached event number `jdataEvtnum` (`uint64`,
  zero-initialised, modelled as `Nat`), and `lastError`.  The reusable
  output buffer created by `sinsp.MakeBuffer` in `plugin_init` is carried
  in the same structure as field `buf`.
* `plugin_extract_str` mirrors jevt.go lines 129-179, including the
  decode-cache block (lines 135-146), the `FieldIDValue` path lookup, the
  `FieldIDMsg` re-indent, the `<NA>` default, and the NUL-terminated copy
  into the shared buffer.  A Go runtime panic (the `sarg[0]` index on an
  empty argument) is modelled as the explicit outcome `ExtractOut.crash`.
* The external dependencies are not part of this repository, so they are
  modelled from their documented behaviour: `parseValue`/`parseJson`
  models `fastjson.Parser.Parse`; `membersGet`/`elemsGet`/`fastjsonGet`/
  `GetStringBytes` model `fastjson.Value.Get`/`GetStringBytes` (which
  walk objects by member key and arrays by decimal index); `atoi` models
  `strconv.Atoi`; `splitSlash` models `strings.Split(s, "/")`; and
  `renderV`/`jsonIndent` model `encoding/json.Indent` with a two-space
  indent.  Parsed strings keep their raw (still escaped) source
  characters, which is exactly what `json.Indent` preserves; key
  comparison is on those raw characters.
-/

/-! ## JSON value trees

A parsed JSON document, as produced by the `fastjson` parser: objects are
ordered member lists (duplicate keys allowed, first match wins on lookup),
strings and numbers keep their raw source characters. -/

mutual

inductive JValue : Type where
  | str (raw : List Char)
  | num (raw : List Char)
  | bool (b : Bool)
  | null
  | obj (members : JMembers)
  | arr (elements : JElems)

inductive JMembers : Type where
  | nil
  | cons (key : List Char) (value : JValue) (rest : JMembers)

inductive JElems : Type where
  | nil
  | cons (head : JValue) (rest : JElems)

end

/-! ## Character classes and tokens -/

/-- JSON insignificant whitespace. -/
def isWsChar (c : Char) : Bool :=
  c = ' ' || c = '\t' || c = '\n' || c = '\r'

/-- Skip insignificant whitespace. -/
def skipWs (cs : List Char) : List Char :=
  cs.dropWhile isWsChar

/-- Characters that may occur in a JSON number token. -/
def isNumChar (c : Char) : Bool :=
  c.isDigit || c = '-' || c = '+' || c = '.' || c = 'e' || c = 'E'

/-- The terminating marker byte appended by `plugin_extract_str`
(`res += "\x00"` in jevt.go line 172). -/
def nulChar : Char := Char.ofNat 0

/-- Scan the body of a JSON string literal after its opening quote: stop at
the first unescaped quote, keep everything before it verbatim (escape
sequences included), and return the remaining input after the closing
quote.  The flag records whether the previous character was an unconsumed
backslash.  Fails on unterminated strings. -/
def scanStr : Bool → List Char → Option (List Char × List Char)
  | _, [] => none
  | true, c :: rest =>
    match scanStr false rest with
    | some (body, r) => some (c :: body, r)
    | none => none
  | false, c :: rest =>
    if c = '"' then some ([], rest)
    else if c = '\\' then
      match scanStr true rest with
      | some (body, r) => some (c :: body, r)
      | none => none
    else
      match scanStr false rest with
      | some (body, r) => some (c :: body, r)
      | none => none

/-- Body of a JSON string literal, starting in the no-pending-escape state. -/
def parseStrBody (cs : List Char) : Option (List Char × List Char) :=
  scanStr false cs

/-! ## The JSON text reader

Modelled from the spec: `fastjson.Parser.Parse` (external dependency
`github.com/valyala/fastjson`, not under src/) — "parses `rawBytes` as
JSON text" producing the value tree that the decode cache stores.  A
fuel-bounded recursive-descent reader over the JSON grammar; the fuel
`input length + 1` is sufficient because every nested call consumes at
least one input character. -/

mutual

def parseValue : Nat → List Char → Option (JValue × List Char)
  | 0, _ => none
  | fuel + 1, cs =>
    match skipWs cs with
    | [] => none
    | c :: rest =>
      if c = '{' then
        match skipWs rest with
        | '}' :: r2 => some (.obj .nil, r2)
        | r =>
          match parseMembers fuel r with
          | some (ms, r2) => some (.obj ms, r2)
          | none => none
      else if c = '[' then
        match skipWs rest with
        | ']' :: r2 => some (.arr .nil, r2)
        | r =>
          match parseElems fuel r with
          | some (es, r2) => some (.arr es, r2)
          | none => none
      else if c = '"' then
        match parseStrBody rest with
        | some (body, r2) => some (.str body, r2)
        | none => none
      else if c = 't' then
        if rest.take 3 = ['r', 'u', 'e'] then some (.bool true, rest.drop 3) else none
      else if c = 'f' then
        if rest.take 4 = ['a', 'l', 's', 'e'] then some (.bool false, rest.drop 4) else none
      else if c = 'n' then
        if rest.take 3 = ['u', 'l', 'l'] then some (.null, rest.drop 3) else none
      else if c = '-' || c.isDigit then
        if (c :: rest.takeWhile isNumChar).any Char.isDigit then
          some (.num (c :: rest.takeWhile isNumChar), rest.dropWhile isNumChar)
        else none
      else none

def parseMembers : Nat → List Char → Option (JMembers × List Char)
  | 0, _ => none
  | fuel + 1, cs =>
    match skipWs cs with
    | '"' :: rest =>
      match parseStrBody rest with
      | none => none
      | some (key, r1) =>
        match skipWs r1 with
        | ':' :: r2 =>
          match parseValue fuel r2 with
          | none => none
          | some (v, r3) =>
            match skipWs r3 with
            | ',' :: r4 =>
              match parseMembers fuel r4 with
              | none => none
              | some (ms, r5) => some (.cons key v ms, r5)
            | '}' :: r4 => some (.cons key v .nil, r4)
            | _ => none
        | _ => none
    | _ => none

def parseElems : Nat → List Char → Option (JElems × List Char)
  | 0, _ => none
  | fuel + 1, cs =>
    match parseValue fuel cs with
    | none => none
    | some (v, r1) =>
      match skipWs r1 with
      | ',' :: r2 =>
        match parseElems fuel r2 with
        | none => none
        | some (es, r3) => some (.cons v es, r3)
      | ']' :: r2 => some (.cons v .nil, r2)
      | _ => none

end

/-- Parse a whole document: one JSON value, surrounded only by whitespace.
Models `fastjson.Parser.Parse`, which rejects a non-whitespace tail. -/
def parseJson (cs : List Char) : Option JValue :=
  match parseValue (cs.length + 1) cs with
  | some (v, rest) => if (skipWs rest).isEmpty then some v else none
  | none => none

/-! ## fastjson value navigation

Modelled from the spec and the documented behaviour of
`fastjson.Value.Get` / `Value.GetStringBytes` (external dependency, not
under src/): "Get returns value by the given keys path.  Array indexes may
be represented as decimal numbers in keys." -/

/-- First member of an object whose key matches (`fastjson.Object.Get`). -/
def membersGet : JMembers → List Char → Option JValue
  | .nil, _ => none
  | .cons k v rest, key => if k = key then some v else membersGet rest key

/-- Element of an array at an index, `none` when out of range. -/
def elemsGet : JElems → Nat → Option JValue
  | .nil, _ => none
  | .cons v _, 0 => some v
  | .cons _ rest, n + 1 => elemsGet rest n

/-- Decimal digit accumulator used by `atoi`; fails on a non-digit. -/
def digitsValCore (acc : Nat) : List Char → Option Nat
  | [] => some acc
  | c :: rest =>
    if c.isDigit then digitsValCore (acc * 10 + (c.toNat - 48)) rest else none

/-- Value of a non-empty all-digit sequence. -/
def digitsVal : List Char → Option Nat
  | [] => none
  | cs => digitsValCore 0 cs

/-- Modelled from the spec: `strconv.Atoi` (Go standard library, not under
src/) — an optional sign followed by at least one decimal digit. -/
def atoi : List Char → Option Int
  | '+' :: rest => (digitsVal rest).map (fun n => (n : Int))
  | '-' :: rest => (digitsVal rest).map (fun n => -(n : Int))
  | cs => (digitsVal cs).map (fun n => (n : Int))

/-- One navigation step of `fastjson.Value.Get`: a `nil` value propagates,
an object is entered by member key, an array by decimal index, and any
scalar stops the walk. -/
def fastjsonGetStep : Option JValue → List Char → Option JValue
  | none, _ => none
  | some (.obj ms), key => membersGet ms key
  | some (.arr es), key =>
    match atoi key with
    | none => none
    | some n => if n < 0 then none else elemsGet es n.toNat
  | some _, _ => none

/-- Walk of `fastjson.Value.Get` over a key path (left fold of the single
step; a failed step yields `nil` which then propagates, exactly as the Go
loop returns `nil` early). -/
def fastjsonGet (v : Option JValue) (keys : List (List Char)) : Option JValue :=
  keys.foldl fastjsonGetStep v

/-- Model of `fastjson.Value.GetStringBytes`: the value at the key path if
it is string-typed, otherwise `nil`. -/
def GetStringBytes (v : Option JValue) (keys : List (List Char)) : Option (List Char) :=
  match fastjsonGet v keys with
  | some (.str raw) => some raw
  | _ => none

/-! ## Path splitting -/

/-- Modelled from the spec: `strings.Split(s, "/")` (Go standard library,
not under src/) — every separator splits, empty segments are kept, and the
empty input yields one empty segment. -/
def splitSlash : List Char → List (List Char)
  | [] => [[]]
  | c :: rest =>
    match splitSlash rest with
    | [] => [[]]
    | seg :: segs => if c = '/' then [] :: seg :: segs else (c :: seg) :: segs

/-- Key segments of a non-empty `jevt.value` argument: strip one leading
slash if present, then split on `/` (jevt.go lines 150-154). -/
def argSegments : List Char → List (List Char)
  | [] => [[]]
  | a0 :: rest => splitSlash (if a0 = '/' then rest else a0 :: rest)

/-! ## Indented re-serialisation

Modelled from the spec: `encoding/json.Indent(&out, data, "", "  ")` (Go
standard library, not under src/) — re-serialises valid JSON with every
element of an object or array on its own line, indented two spaces per
nesting level, a space after each colon, empty composites kept compact,
and all original tokens (key order, duplicate keys, raw string and number
text) preserved. -/

/-- Indentation for nesting depth `d`: two spaces per level. -/
def indentChars (d : Nat) : List Char := List.replicate (2 * d) ' '

mutual

def renderV : Nat → JValue → List Char
  | _, .str raw => '"' :: (raw ++ ['"'])
  | _, .num raw => raw
  | _, .bool b => if b then ['t', 'r', 'u', 'e'] else ['f', 'a', 'l', 's', 'e']
  | _, .null => ['n', 'u', 'l', 'l']
  | _, .obj .nil => ['{', '}']
  | d, .obj (.cons k v ms) =>
    '{' :: '\n' :: (renderM (d + 1) (.cons k v ms) ++ '\n' :: (indentChars d ++ ['}']))
  | _, .arr .nil => ['[', ']']
  | d, .arr (.cons v es) =>
    '[' :: '\n' :: (renderE (d + 1) (.cons v es) ++ '\n' :: (indentChars d ++ [']']))

def renderM : Nat → JMembers → List Char
  | _, .nil => []
  | d, .cons k v .nil =>
    indentChars d ++ '"' :: (k ++ '"' :: ':' :: ' ' :: renderV d v)
  | d, .cons k v (.cons k2 v2 ms) =>
    indentChars d ++ '"' :: (k ++ '"' :: ':' :: ' ' :: renderV d v) ++
      ',' :: '\n' :: renderM d (.cons k2 v2 ms)

def renderE : Nat → JElems → List Char
  | _, .nil => []
  | d, .cons v .nil => indentChars d ++ renderV d v
  | d, .cons v (.cons v2 es) =>
    indentChars d ++ renderV d v ++ ',' :: '\n' :: renderE d (.cons v2 es)

end

/-- Indented text of a whole document (depth 0). -/
def renderIndent (v : JValue) : List Char := renderV 0 v

/-- Model of `json.Indent` on raw bytes: parse, then re-serialise indented;
`none` when the bytes are not valid JSON. -/
def jsonIndent (data : List Char) : Option (List Char) :=
  (parseJson data).map renderIndent

/-! ## The plugin context and extraction step (jevt.go) -/

/-- The Go `pluginContext` struct (jevt.go lines 34-39) together with the
shared output buffer allocated by `plugin_init` (`sinsp.MakeBuffer`).
`jdata` is the nil-able pointer to the last parsed document, `jdataEvtnum`
the event number it refers to, `lastError` the diagnostic read by
`plugin_get_last_error`, and `buf` the current published contents of the
reusable output buffer. -/
structure pluginContext where
  jdata : Option JValue
  jdataEvtnum : Nat
  lastError : Option (List Char)
  buf : List Char

/-- Context as created by `plugin_init` (`&pluginContext{}`): Go zero
values — `jdata = nil`, `jdataEvtnum = 0`, `lastError = nil` — and a fresh
output buffer. -/
def initialContext : pluginContext :=
  ⟨none, 0, none, []⟩

/-- Field identifiers (jevt.go lines 108-111, `iota`): `jevt.value` is 0,
`jevt.json` is 1. -/
def FieldIDValue : Nat := 0

/-- Field identifier of `jevt.json`. -/
def FieldIDMsg : Nat := 1

/-- What `plugin_extract_str` hands back to the caller: the address of the
shared buffer, the `nil` sentinel meaning "field not present", or a Go
runtime panic. -/
inductive ExtractOut where
  | crash
  | nullHandle
  | bufferHandle
deriving DecidableEq

/-- Outcome of the decode-cache block (jevt.go lines 135-146): the updated
context, whether control proceeds past the block (`ok`), and the
instrumentation hooks of the spec's testable properties — whether a parse
was attempted and whether it succeeded. -/
structure CacheResult where
  ctx : pluginContext
  ok : Bool
  attempted : Bool
  succeeded : Bool

/-- Decode-cache block of `plugin_extract_str` (jevt.go lines 135-146):
re-parse only when the event number differs from the cached one.  On
success both `jdata` and `jdataEvtnum` are replaced; on failure the Go
multiple assignment `pCtx.jdata, err = pCtx.jparser.Parse(...)` still
overwrites `jdata` with `nil` while `jdataEvtnum` keeps its old value, and
the call returns `nil` at once. -/
def decodeCache (ctx : pluginContext) (evtnum : Nat) (data : List Char) : CacheResult :=
  if evtnum ≠ ctx.jdataEvtnum then
    match parseJson data with
    | none => ⟨{ ctx with jdata := none }, false, true, false⟩
    | some v => ⟨{ ctx with jdata := some v, jdataEvtnum := evtnum }, true, true, true⟩
  else ⟨ctx, true, false, false⟩

/-- Result of one `plugin_extract_str` call: the context after the call,
the returned handle (or crash), and the parse instrumentation. -/
structure StepResult where
  ctx : pluginContext
  out : ExtractOut
  parseAttempted : Bool
  parseSucceeded : Bool

/-- Tail of `plugin_extract_str` (jevt.go lines 169-178): append the NUL
terminator, copy into the shared buffer, return the buffer address. -/
def publishBuffer (c : CacheResult) (res : List Char) : StepResult :=
  ⟨{ c.ctx with buf := res ++ [nulChar] }, .bufferHandle, c.attempted, c.succeeded⟩

/-- Literal published for unknown field identifiers (jevt.go line 168). -/
def naText : List Char := ['<', 'N', 'A', '>']

/-- The exported extraction entry point `plugin_extract_str` (jevt.go
lines 129-179).  The decode-cache block runs first for every field id; the
`FieldIDValue` branch indexes `sarg[0]` — a Go runtime panic when the
argument is empty — then strips an optional leading slash, splits on `/`
and looks the segments up with `GetStringBytes`; the `FieldIDMsg` branch
re-indents the raw bytes; any other id publishes `<NA>`. -/
def plugin_extract_str (ctx : pluginContext) (evtnum : Nat) (id : Nat)
    (arg : List Char) (data : List Char) : StepResult :=
  let c := decodeCache ctx evtnum data
  if c.ok = false then ⟨c.ctx, .nullHandle, c.attempted, c.succeeded⟩
  else if id = FieldIDValue then
    match arg with
    | [] => ⟨c.ctx, .crash, c.attempted, c.succeeded⟩
    | a0 :: rest =>
      match GetStringBytes c.ctx.jdata (splitSlash (if a0 = '/' then rest else a0 :: rest)) with
      | none => ⟨c.ctx, .nullHandle, c.attempted, c.succeeded⟩
      | some val => publishBuffer c val
  else if id = FieldIDMsg then
    match jsonIndent data with
    | none => ⟨c.ctx, .nullHandle, c.attempted, c.succeeded⟩
    | some res => publishBuffer c res
  else publishBuffer c naText

/-- The exported `plugin_get_last_error` (jevt.go lines 72-79): the stored
diagnostic if one exists, else the literal `no error`. -/
def plugin_get_last_error (ctx : pluginContext) : List Char :=
  match ctx.lastError with
  | some msg => msg
  | none => ['n', 'o', ' ', 'e', 'r', 'r', 'o', 'r']

/-- Fold a sequence of extraction requests (event number, field id,
argument, data) over a context, as the host's per-event extraction
collaborator does. -/
def runCalls (ctx : pluginContext) : List (Nat × Nat × List Char × List Char) → pluginContext
  | [] => ctx
  | (e, id, arg, data) :: rest => runCalls (plugin_extract_str ctx e id arg data).ctx rest

/-! ## Spec-side path navigation

Written from the amended wording of the path-navigation claim, to be
compared with the embedded `GetStringBytes` walk: follow each segment in
order — at an object the first member with that key, at an array the
element at the segment read as a decimal index — and yield the terminal
value only when it is a string. -/

/-- Navigation as the (amended) spec words it, defined directly on a value
tree by recursion over the segments. -/
def specNavigate : JValue → List (List Char) → Option (List Char)
  | .str raw, [] => some raw
  | _, [] => none
  | .obj ms, k :: ks =>
    match membersGet ms k with
    | some v => specNavigate v ks
    | none => none
  | .arr es, k :: ks =>
    match atoi k with
    | none => none
    | some n =>
      if n < 0 then none
      else
        match elemsGet es n.toNat with
        | some v => specNavigate v ks
        | none => none
  | _, _ :: _ => none

/-! ## Whitespace and token lemmas -/

theorem skipWs_cons_not {c : Char} (cs : List Char) (h : isWsChar c = false) :
    skipWs (c :: cs) = c :: cs := by
  simp [skipWs, List.dropWhile_cons, h]

theorem skipWs_append (ws cs : List Char) (h : ∀ c ∈ ws, isWsChar c = true) :
    skipWs (ws ++ cs) = skipWs cs := by
  induction ws with
  | nil => rfl
  | cons w ws ih =>
    have hw : isWsChar w = true := h w (List.mem_cons_self w ws)
    simp only [List.cons_append, skipWs, List.dropWhile_cons, hw, if_true]
    exact ih (fun c hc => h c (List.mem_cons_of_mem w hc))

theorem skipWs_idem (cs : List Char) : skipWs (skipWs cs) = skipWs cs := by
  induction cs with
  | nil => rfl
  | cons c cs ih =>
    by_cases hc : isWsChar c = true
    · simp only [skipWs, List.dropWhile_cons, hc, if_true]
      exact ih
    · simp only [skipWs, List.dropWhile_cons, hc, if_false]
      simp only [Bool.not_eq_true] at hc
      simp [List.dropWhile_cons, hc]

theorem parseValue_congr (f : Nat) {cs₁ cs₂ : List Char} (h : skipWs cs₁ = skipWs cs₂) :
    parseValue f cs₁ = parseValue f cs₂ := by
  cases f with
  | zero => rfl
  | succ f => simp only [parseValue]; rw [h]

theorem parseMembers_congr (f : Nat) {cs₁ cs₂ : List Char} (h : skipWs cs₁ = skipWs cs₂) :
    parseMembers f cs₁ = parseMembers f cs₂ := by
  cases f with
  | zero => rfl
  | succ f => simp only [parseMembers]; rw [h]

theorem parseElems_congr (f : Nat) {cs₁ cs₂ : List Char} (h : skipWs cs₁ = skipWs cs₂) :
    parseElems f cs₁ = parseElems f cs₂ := by
  cases f with
  | zero => rfl
  | succ f => simp only [parseElems]; rw [parseValue_congr f h]

/-- Boundary condition after a number token: the next character, if any,
cannot extend the token. -/
def numBoundary : List Char → Bool
  | [] => true
  | c :: _ => !isNumChar c

theorem takeNum_append (xs ys : List Char) (hxs : ∀ c ∈ xs, isNumChar c = true)
    (hys : numBoundary ys = true) :
    (xs ++ ys).takeWhile isNumChar = xs ∧ (xs ++ ys).dropWhile isNumChar = ys := by
  induction xs with
  | nil =>
    simp only [List.nil_append]
    cases ys with
    | nil => simp
    | cons y ys =>
      simp only [numBoundary, Bool.not_eq_true'] at hys
      simp [List.takeWhile_cons, List.dropWhile_cons, hys]
  | cons x xs ih =>
    have hx : isNumChar x = true := hxs x (List.mem_cons_self x xs)
    have ⟨h1, h2⟩ := ih (fun c hc => hxs c (List.mem_cons_of_mem x hc))
    simp [List.takeWhile_cons, List.dropWhile_cons, hx, h1, h2]

/-! ## Well-formed raw tokens -/

/-- Well-formedness of a stored raw string body relative to the
pending-escape flag: scanning it meets no bare quote and does not end in
the middle of an escape. -/
def wfRawF : Bool → List Char → Bool
  | false, [] => true
  | true, [] => false
  | true, _ :: rest => wfRawF false rest
  | false, c :: rest =>
    if c = '"' then false
    else if c = '\\' then wfRawF true rest
    else wfRawF false rest

/-- Well-formedness of a raw string body. -/
def wfRaw (raw : List Char) : Bool := wfRawF false raw

theorem scanStr_complete (body : List Char) : ∀ (b : Bool) (r : List Char),
    wfRawF b body = true → scanStr b (body ++ '"' :: r) = some (body, r) := by
  induction body with
  | nil =>
    intro b r h
    cases b with
    | false => simp [scanStr]
    | true => simp [wfRawF] at h
  | cons c rest ih =>
    intro b r h
    cases b with
    | true =>
      simp only [wfRawF] at h
      simp [scanStr, ih false r h]
    | false =>
      simp only [wfRawF] at h
      by_cases hq : c = '"'
      · simp [hq] at h
      · by_cases hb : c = '\\'
        · simp only [if_neg hq, hb, if_pos rfl] at h
          simp [scanStr, hq, hb, ih true r h]
        · simp only [if_neg hq, if_neg hb] at h
          simp [scanStr, hq, hb, ih false r h]

theorem scanStr_sound (cs : List Char) : ∀ (b : Bool) (body r : List Char),
    scanStr b cs = some (body, r) → wfRawF b body = true := by
  induction cs with
  | nil => intro b body r h; cases b <;> simp [scanStr] at h
  | cons c rest ih =>
    intro b body r h
    cases b with
    | true =>
      simp only [scanStr] at h
      cases hrec : scanStr false rest with
      | none => rw [hrec] at h; simp at h
      | some p =>
        rw [hrec] at h
        simp only [Option.some.injEq] at h
        obtain ⟨rfl, rfl⟩ : c :: p.1 = body ∧ p.2 = r := by
          constructor
          · exact congrArg Prod.fst h
          · exact congrArg Prod.snd h
        simp only [wfRawF]
        exact ih false p.1 p.2 (by rw [hrec])
    | false =>
      simp only [scanStr] at h
      by_cases hq : c = '"'
      · rw [if_pos hq] at h
        simp only [Option.some.injEq] at h
        obtain rfl : ([] : List Char) = body := congrArg Prod.fst h
        simp [wfRawF]
      · rw [if_neg hq] at h
        by_cases hb : c = '\\'
        · rw [if_pos hb] at h
          cases hrec : scanStr true rest with
          | none => rw [hrec] at h; simp at h
          | some p =>
            rw [hrec] at h
            simp only [Option.some.injEq] at h
            obtain rfl : c :: p.1 = body := congrArg Prod.fst h
            simp only [wfRawF, if_neg hq, hb, if_pos rfl]
            exact ih true p.1 p.2 (by rw [hrec])
        · rw [if_neg hb] at h
          cases hrec : scanStr false rest with
          | none => rw [hrec] at h; simp at h
          | some p =>
            rw [hrec] at h
            simp only [Option.some.injEq] at h
            obtain rfl : c :: p.1 = body := congrArg Prod.fst h
            simp only [wfRawF, if_neg hq, if_neg hb]
            exact ih false p.1 p.2 (by rw [hrec])

theorem parseStrBody_complete (body r : List Char) (h : wfRaw body = true) :
    parseStrBody (body ++ '"' :: r) = some (body, r) :=
  scanStr_complete body false r h

theorem parseStrBody_sound {cs body r : List Char}
    (h : parseStrBody cs = some (body, r)) : wfRaw body = true :=
  scanStr_sound cs false body r h

/-! ## Well-formed values -/

/-- Well-formedness of a raw number token: non-empty, starts with a minus
sign or digit, made only of number characters, and contains a digit —
exactly the shape the reader produces and re-reads. -/
def wfNum : List Char → Bool
  | [] => false
  | c :: rest => (c = '-' || c.isDigit) && rest.all isNumChar && (c :: rest).any Char.isDigit

mutual

def wfV : JValue → Bool
  | .str raw => wfRaw raw
  | .num raw => wfNum raw
  | .bool _ => true
  | .null => true
  | .obj ms => wfM ms
  | .arr es => wfE es

def wfM : JMembers → Bool
  | .nil => true
  | .cons k v ms => wfRaw k && wfV v && wfM ms

def wfE : JElems → Bool
  | .nil => true
  | .cons v es => wfV v && wfE es

end

/-! ## Every parsed value is well formed -/

mutual

theorem parseValue_wf : ∀ (f : Nat) (cs : List Char) (v : JValue) (r : List Char),
    parseValue f cs = some (v, r) → wfV v = true
  | 0, cs, v, r, h => by simp [parseValue] at h
  | f + 1, cs, v, r, h => by
    simp only [parseValue] at h
    split at h
    · simp at h
    · split_ifs at h with h1 h2 h3 h4 h5 h6 h7 h8 h9 h10 h11
      · -- object
        split at h
        · simp only [Option.some.injEq, Prod.mk.injEq] at h
          obtain ⟨rfl, rfl⟩ := h
          simp [wfV, wfM]
        · split at h
          · rename_i ms r2 heq
            simp only [Option.some.injEq, Prod.mk.injEq] at h
            obtain ⟨rfl, rfl⟩ := h
            simp only [wfV]
            exact parseMembers_wf f _ ms r2 heq
          · simp at h
      · -- array
        split at h
        · simp only [Option.some.injEq, Prod.mk.injEq] at h
          obtain ⟨rfl, rfl⟩ := h
          simp [wfV, wfE]
        · split at h
          · rename_i es r2 heq
            simp only [Option.some.injEq, Prod.mk.injEq] at h
            obtain ⟨rfl, rfl⟩ := h
            simp only [wfV]
            exact parseElems_wf f _ es r2 heq
          · simp at h
      · -- string
        split at h
        · rename_i body r2 heq
          simp only [Option.some.injEq, Prod.mk.injEq] at h
          obtain ⟨rfl, rfl⟩ := h
          simp only [wfV]
          exact parseStrBody_sound heq
        · simp at h
      all_goals simp only [Option.some.injEq, Prod.mk.injEq] at h
      all_goals obtain ⟨rfl, rfl⟩ := h
      all_goals first
        | (simp [wfV]; done)
        | (simp only [wfV, wfNum, Bool.and_eq_true]
           exact ⟨⟨h10, List.all_eq_true.mpr (fun c hc => List.mem_takeWhile_imp hc)⟩, h11⟩)

theorem parseMembers_wf : ∀ (f : Nat) (cs : List Char) (ms : JMembers) (r : List Char),
    parseMembers f cs = some (ms, r) → wfM ms = true
  | 0, cs, ms, r, h => by simp [parseMembers] at h
  | f + 1, cs, ms, r, h => by
    simp only [parseMembers] at h
    split at h
    · split at h
      · simp at h
      · rename_i key r1 heq1
        split at h
        · split at h
          · simp at h
          · rename_i v r3 heq2
            split at h
            · split at h
              · simp at h
              · rename_i ms2 r5 heq3
                simp only [Option.some.injEq, Prod.mk.injEq] at h
                obtain ⟨rfl, rfl⟩ := h
                simp only [wfM, Bool.and_eq_true]
                exact ⟨⟨parseStrBody_sound heq1, parseValue_wf f _ v r3 heq2⟩,
                  parseMembers_wf f _ ms2 r5 heq3⟩
            · simp only [Option.some.injEq, Prod.mk.injEq] at h
              obtain ⟨rfl, rfl⟩ := h
              simp only [wfM, Bool.and_eq_true]
              exact ⟨⟨parseStrBody_sound heq1, parseValue_wf f _ v r3 heq2⟩, trivial⟩
            · simp at h
        · simp at h
    · simp at h

theorem parseElems_wf : ∀ (f : Nat) (cs : List Char) (es : JElems) (r : List Char),
    parseElems f cs = some (es, r) → wfE es = true
  | 0, cs, es, r, h => by simp [parseElems] at h
  | f + 1, cs, es, r, h => by
    simp only [parseElems] at h
    split at h
    · simp at h
    · rename_i v r1 heq1
      split at h
      · split at h
        · simp at h
        · rename_i es2 r3 heq2
          simp only [Option.some.injEq, Prod.mk.injEq] at h
          obtain ⟨rfl, rfl⟩ := h
          simp only [wfE, Bool.and_eq_true]
          exact ⟨parseValue_wf f _ v r1 heq1, parseElems_wf f _ es2 r3 heq2⟩
      · simp only [Option.some.injEq, Prod.mk.injEq] at h
        obtain ⟨rfl, rfl⟩ := h
        simp only [wfE, Bool.and_eq_true]
        exact ⟨parseValue_wf f _ v r1 heq1, trivial⟩
      · simp at h

end

/-- A successfully parsed document is well formed. -/
theorem parseJson_wf {cs : List Char} {v : JValue} (h : parseJson cs = some v) :
    wfV v = true := by
  unfold parseJson at h
  split at h
  · rename_i v2 rest heq
    split at h
    · simp only [Option.some.injEq] at h
      subst h
      exact parseValue_wf _ cs _ rest heq
    · simp at h
  · simp at h

/-! ## Fuel requirements of the reader -/

mutual

def needV : JValue → Nat
  | .obj ms => 1 + needM ms
  | .arr es => 1 + needE es
  | _ => 1

def needM : JMembers → Nat
  | .nil => 0
  | .cons _ v .nil => 1 + needV v
  | .cons _ v (.cons k2 v2 ms) => 1 + max (needV v) (needM (.cons k2 v2 ms))

def needE : JElems → Nat
  | .nil => 0
  | .cons v .nil => 1 + needV v
  | .cons v (.cons v2 es) => 1 + max (needV v) (needE (.cons v2 es))

end

mutual

theorem needV_le : ∀ (d : Nat) (v : JValue), needV v ≤ (renderV d v).length + 1
  | _, .str _ => by simp [needV, renderV]
  | _, .num _ => by simp [needV, renderV]
  | _, .bool b => by cases b <;> simp [needV, renderV]
  | _, .null => by simp [needV, renderV]
  | _, .obj .nil => by simp [needV, needM, renderV]
  | d, .obj (.cons k v ms) => by
    have h := needM_le (d + 1) (.cons k v ms)
    simp only [needV, renderV, List.length_append, List.length_cons]
    omega
  | _, .arr .nil => by simp [needV, needE, renderV]
  | d, .arr (.cons v es) => by
    have h := needE_le (d + 1) (.cons v es)
    simp only [needV, renderV, List.length_append, List.length_cons]
    omega

theorem needM_le : ∀ (d : Nat) (ms : JMembers), needM ms ≤ (renderM d ms).length + 1
  | _, .nil => by simp [needM]
  | d, .cons k v .nil => by
    have h := needV_le d v
    simp only [needM, renderM, List.length_append, List.length_cons]
    omega
  | d, .cons k v (.cons k2 v2 ms) => by
    have h := needV_le d v
    have h2 := needM_le d (.cons k2 v2 ms)
    simp only [needM, renderM, List.length_append, List.length_cons]
    omega

theorem needE_le : ∀ (d : Nat) (es : JElems), needE es ≤ (renderE d es).length + 2
  | _, .nil => by simp [needE]
  | d, .cons v .nil => by
    have h := needV_le d v
    simp only [needE, renderE, List.length_append, List.length_cons]
    omega
  | d, .cons v (.cons v2 es) => by
    have h := needV_le d v
    have h2 := needE_le d (.cons v2 es)
    simp only [needE, renderE, List.length_append, List.length_cons]
    omega

end

/-! ## Character facts -/

theorem indentChars_ws (d : Nat) : ∀ c ∈ indentChars d, isWsChar c = true := by
  intro c hc
  rw [List.eq_of_mem_replicate hc]
  rfl

theorem skipWs_indent_cons (d : Nat) {c : Char} (X : List Char) (h : isWsChar c = false) :
    skipWs (indentChars d ++ c :: X) = c :: X := by
  rw [skipWs_append _ _ (indentChars_ws d), skipWs_cons_not _ h]

theorem isDigit_ne {c : Char} (h : c.isDigit = true) {d : Char} (hd : d.isDigit = false) :
    c ≠ d := by
  intro heq
  rw [heq] at h
  rw [h] at hd
  exact Bool.noConfusion hd

theorem isDigit_not_ws {c : Char} (h : c.isDigit = true) : isWsChar c = false := by
  cases hw : isWsChar c
  · rfl
  · exfalso
    simp only [isWsChar, Bool.or_eq_true, decide_eq_true_eq] at hw
    rcases hw with ((rfl | rfl) | rfl) | rfl <;> simp at h

theorem numStart_ne {c : Char} (h : (c = '-' || c.isDigit) = true) {d : Char}
    (hd : d.isDigit = false) (hm : d ≠ '-') : c ≠ d := by
  rcases (show c = '-' ∨ c.isDigit = true by simpa using h) with h1 | h1
  · subst h1
    exact fun heq => hm heq.symm
  · exact isDigit_ne h1 hd

theorem numStart_not_ws {c : Char} (h : (c = '-' || c.isDigit) = true) :
    isWsChar c = false := by
  rcases (show c = '-' ∨ c.isDigit = true by simpa using h) with h1 | h1
  · subst h1
    rfl
  · exact isDigit_not_ws h1

theorem skipWs_cons_ws {c : Char} (h : isWsChar c = true) (X : List Char) :
    skipWs (c :: X) = skipWs X := by
  simp [skipWs, List.dropWhile_cons, h]

theorem renderM_cons_eq (d : Nat) (k : List Char) (v : JValue) (ms : JMembers) :
    ∃ Z, renderM d (.cons k v ms) = indentChars d ++ '"' :: Z := by
  cases ms with
  | nil => exact ⟨k ++ '"' :: ':' :: ' ' :: renderV d v, rfl⟩
  | cons k2 v2 ms2 =>
    refine ⟨k ++ '"' :: ':' :: ' ' :: (renderV d v ++ ',' :: '\n' :: renderM d (.cons k2 v2 ms2)), ?_⟩
    simp [renderM, List.cons_append, List.append_assoc]

/-- Head character of a rendered well-formed value: never whitespace and
never a closing bracket. -/
theorem renderV_head (d : Nat) (v : JValue) (hwf : wfV v = true) :
    ∃ c X, renderV d v = c :: X ∧ isWsChar c = false ∧ c ≠ ']' ∧ c ≠ '}' := by
  cases v with
  | str raw => exact ⟨'"', raw ++ ['"'], rfl, by decide, by decide, by decide⟩
  | num raw =>
    cases raw with
    | nil => simp [wfV, wfNum] at hwf
    | cons c cr =>
      simp only [wfV, wfNum, Bool.and_eq_true] at hwf
      obtain ⟨⟨hc, _⟩, _⟩ := hwf
      exact ⟨c, cr, rfl, numStart_not_ws hc,
        numStart_ne hc (by decide) (by decide), numStart_ne hc (by decide) (by decide)⟩
  | bool b =>
    cases b with
    | false => exact ⟨'f', ['a', 'l', 's', 'e'], rfl, by decide, by decide, by decide⟩
    | true => exact ⟨'t', ['r', 'u', 'e'], rfl, by decide, by decide, by decide⟩
  | null => exact ⟨'n', ['u', 'l', 'l'], rfl, by decide, by decide, by decide⟩
  | obj ms =>
    cases ms with
    | nil => exact ⟨'{', ['}'], rfl, by decide, by decide, by decide⟩
    | cons k v2 ms2 =>
      exact ⟨'{', '\n' :: (renderM (d + 1) (.cons k v2 ms2) ++ '\n' :: (indentChars d ++ ['}'])),
        rfl, by decide, by decide, by decide⟩
  | arr es =>
    cases es with
    | nil => exact ⟨'[', [']'], rfl, by decide, by decide, by decide⟩
    | cons v2 es2 =>
      exact ⟨'[', '\n' :: (renderE (d + 1) (.cons v2 es2) ++ '\n' :: (indentChars d ++ [']'])),
        rfl, by decide, by decide, by decide⟩

theorem numBoundary_cons {c : Char} (h : isNumChar c = false) (X : List Char) :
    numBoundary (c :: X) = true := by
  simp [numBoundary, h]

/-! ## Re-reading a rendered document gives the same tree -/

mutual

theorem renderV_rt : ∀ (v : JValue), wfV v = true → ∀ (f : Nat), needV v ≤ f →
    ∀ (d : Nat) (rest : List Char), numBoundary rest = true →
    parseValue f (renderV d v ++ rest) = some (v, rest)
  | .str raw, hwf, f, hf, d, rest, _ => by
    cases f with
    | zero => simp [needV] at hf
    | succ f =>
      simp only [wfV] at hwf
      have hps := parseStrBody_complete raw rest hwf
      simp only [renderV, parseValue, List.cons_append]
      rw [skipWs_cons_not _ (by decide)]
      simp only [List.append_assoc, List.singleton_append]
      simp [hps]
  | .num raw, hwf, f, hf, d, rest, hrest => by
    cases f with
    | zero => simp [needV] at hf
    | succ f =>
      simp only [wfV] at hwf
      cases raw with
      | nil => simp [wfNum] at hwf
      | cons c cr =>
        simp only [wfNum, Bool.and_eq_true] at hwf
        obtain ⟨⟨hc, hall⟩, hany⟩ := hwf
        have hws := numStart_not_ws hc
        have h1 : c ≠ '{' := numStart_ne hc (by decide) (by decide)
        have h2 : c ≠ '[' := numStart_ne hc (by decide) (by decide)
        have h3 : c ≠ '"' := numStart_ne hc (by decide) (by decide)
        have h4 : c ≠ 't' := numStart_ne hc (by decide) (by decide)
        have h5 : c ≠ 'f' := numStart_ne hc (by decide) (by decide)
        have h6 : c ≠ 'n' := numStart_ne hc (by decide) (by decide)
        have hsplit := takeNum_append cr rest
          (fun x hx => List.all_eq_true.mp hall x hx) hrest
        simp only [renderV, parseValue, List.cons_append]
        rw [skipWs_cons_not _ hws]
        simp [h1, h2, h3, h4, h5, h6, hc, hsplit.1, hsplit.2, hany]
  | .bool b, hwf, f, hf, d, rest, _ => by
    cases f with
    | zero => simp [needV] at hf
    | succ f =>
      cases b with
      | true =>
        have hin : renderV d (.bool true) ++ rest = 't' :: 'r' :: 'u' :: 'e' :: rest := by
          simp [renderV]
        rw [hin]
        simp only [parseValue]
        rw [skipWs_cons_not _ (by decide)]
        simp [List.take, List.drop]
      | false =>
        have hin : renderV d (.bool false) ++ rest
            = 'f' :: 'a' :: 'l' :: 's' :: 'e' :: rest := by
          simp [renderV]
        rw [hin]
        simp only [parseValue]
        rw [skipWs_cons_not _ (by decide)]
        simp [List.take, List.drop]
  | .null, hwf, f, hf, d, rest, _ => by
    cases f with
    | zero => simp [needV] at hf
    | succ f =>
      have hin : renderV d .null ++ rest = 'n' :: 'u' :: 'l' :: 'l' :: rest := by
        simp [renderV]
      rw [hin]
      simp only [parseValue]
      rw [skipWs_cons_not _ (by decide)]
      simp [List.take, List.drop]
  | .obj .nil, hwf, f, hf, d, rest, _ => by
    cases f with
    | zero => simp [needV] at hf
    | succ f =>
      have hin : renderV d (.obj .nil) ++ rest = '{' :: '}' :: rest := by
        simp [renderV]
      rw [hin]
      simp only [parseValue]
      rw [skipWs_cons_not _ (by decide)]
      have hsk : skipWs ('}' :: rest) = '}' :: rest := skipWs_cons_not _ (by decide)
      simp [hsk]
  | .obj (.cons k v ms), hwf, f, hf, d, rest, _ => by
    cases f with
    | zero => exfalso; simp only [needV] at hf; omega
    | succ f =>
      have hfm : needM (.cons k v ms) ≤ f := by
        simp only [needV] at hf; omega
      have hwfm : wfM (.cons k v ms) = true := by simpa [wfV] using hwf
      have hmem := renderM_rt k v ms hwfm f hfm d rest
      obtain ⟨Z, hZ⟩ := renderM_cons_eq (d + 1) k v ms
      have hin : renderV d (.obj (.cons k v ms)) ++ rest
          = '{' :: '\n' :: (renderM (d + 1) (.cons k v ms) ++
              '\n' :: (indentChars d ++ '}' :: rest)) := by
        simp only [renderV, List.cons_append, List.append_assoc, List.singleton_append,
          List.nil_append]
      have hskA : skipWs ('\n' :: (renderM (d + 1) (.cons k v ms) ++
              '\n' :: (indentChars d ++ '}' :: rest)))
          = '"' :: (Z ++ '\n' :: (indentChars d ++ '}' :: rest)) := by
        rw [skipWs_cons_ws (by decide), hZ]
        simp only [List.append_assoc, List.cons_append]
        exact skipWs_indent_cons _ _ (by decide)
      have hpm : parseMembers f ('"' :: (Z ++ '\n' :: (indentChars d ++ '}' :: rest)))
          = some (JMembers.cons k v ms, rest) := by
        have hcongr : skipWs ('"' :: (Z ++ '\n' :: (indentChars d ++ '}' :: rest)))
            = skipWs (renderM (d + 1) (.cons k v ms) ++
                '\n' :: (indentChars d ++ '}' :: rest)) := by
          rw [skipWs_cons_not _ (by decide), hZ]
          simp only [List.append_assoc, List.cons_append]
          exact (skipWs_indent_cons _ _ (by decide)).symm
        rw [parseMembers_congr f hcongr]
        exact hmem
      rw [hin]
      simp only [parseValue]
      rw [skipWs_cons_not _ (by decide)]
      simp [hskA, hpm]
  | .arr .nil, hwf, f, hf, d, rest, _ => by
    cases f with
    | zero => simp [needV] at hf
    | succ f =>
      have hin : renderV d (.arr .nil) ++ rest = '[' :: ']' :: rest := by
        simp [renderV]
      rw [hin]
      simp only [parseValue]
      rw [skipWs_cons_not _ (by decide)]
      have hsk : skipWs (']' :: rest) = ']' :: rest := skipWs_cons_not _ (by decide)
      simp [hsk]
  | .arr (.cons v es), hwf, f, hf, d, rest, _ => by
    cases f with
    | zero => exfalso; simp only [needV] at hf; omega
    | succ f =>
      have hfe : needE (.cons v es) ≤ f := by
        simp only [needV] at hf; omega
      have hwfe : wfE (.cons v es) = true := by simpa [wfV] using hwf
      have hwfv : wfV v = true := by
        simp only [wfE, Bool.and_eq_true] at hwfe
        exact hwfe.1
      have hwfe2 : wfE (.cons v es) = true := by simpa [wfV] using hwf
      have helem := renderE_rt v es hwfe2 f hfe d rest
      obtain ⟨c0, X0, hhead, hc0ws, hc0b, _⟩ := renderV_head (d + 1) v hwfv
      have hin : renderV d (.arr (.cons v es)) ++ rest
          = '[' :: '\n' :: (renderE (d + 1) (.cons v es) ++
              '\n' :: (indentChars d ++ ']' :: rest)) := by
        simp only [renderV, List.cons_append, List.append_assoc, List.singleton_append,
          List.nil_append]
      have hskE : ∃ W, skipWs (renderE (d + 1) (.cons v es) ++
              '\n' :: (indentChars d ++ ']' :: rest)) = c0 :: W := by
        cases es with
        | nil =>
          refine ⟨X0 ++ '\n' :: (indentChars d ++ ']' :: rest), ?_⟩
          simp only [renderE, List.append_assoc]
          rw [skipWs_append _ _ (indentChars_ws (d + 1)), hhead, List.cons_append,
            skipWs_cons_not _ hc0ws]
        | cons v2 es2 =>
          refine ⟨X0 ++ ',' :: '\n' :: (renderE (d + 1) (.cons v2 es2) ++
            '\n' :: (indentChars d ++ ']' :: rest)), ?_⟩
          simp only [renderE, List.append_assoc, List.cons_append]
          rw [skipWs_append _ _ (indentChars_ws (d + 1)), hhead, List.cons_append,
            skipWs_cons_not _ hc0ws]
      obtain ⟨W, hW⟩ := hskE
      have hskA : skipWs ('\n' :: (renderE (d + 1) (.cons v es) ++
              '\n' :: (indentChars d ++ ']' :: rest))) = c0 :: W := by
        rw [skipWs_cons_ws (by decide)]
        exact hW
      have hpe : parseElems f (c0 :: W) = some (JElems.cons v es, rest) := by
        have hcongr : skipWs (c0 :: W)
            = skipWs (renderE (d + 1) (.cons v es) ++
                '\n' :: (indentChars d ++ ']' :: rest)) := by
          rw [skipWs_cons_not _ hc0ws, hW]
        rw [parseElems_congr f hcongr]
        exact helem
      rw [hin]
      simp only [parseValue]
      rw [skipWs_cons_not _ (by decide)]
      simp [hskA, hpe, hc0b]
  termination_by v => sizeOf v
  decreasing_by all_goals (simp <;> omega)

theorem renderM_rt : ∀ (k : List Char) (v : JValue) (ms : JMembers),
    wfM (.cons k v ms) = true → ∀ (f : Nat), needM (.cons k v ms) ≤ f →
    ∀ (d : Nat) (rest : List Char),
    parseMembers f (renderM (d + 1) (.cons k v ms) ++
        '\n' :: (indentChars d ++ '}' :: rest))
      = some (.cons k v ms, rest)
  | k, v, .nil, hwf, f, hf, d, rest => by
    cases f with
    | zero => simp [needM] at hf
    | succ f =>
      simp only [wfM, Bool.and_eq_true] at hwf
      obtain ⟨⟨hwk, hwv⟩, _⟩ := hwf
      have hfv : needV v ≤ f := by simp only [needM] at hf; omega
      have hval := renderV_rt v hwv f hfv (d + 1)
        ('\n' :: (indentChars d ++ '}' :: rest)) (numBoundary_cons (by decide) _)
      have hkey := parseStrBody_complete k
        (':' :: ' ' :: (renderV (d + 1) v ++ '\n' :: (indentChars d ++ '}' :: rest))) hwk
      simp only [renderM, parseMembers, List.append_assoc, List.cons_append]
      rw [skipWs_indent_cons _ _ (by decide)]
      have hpv : parseValue f (' ' :: (renderV (d + 1) v ++
              '\n' :: (indentChars d ++ '}' :: rest)))
          = some (v, '\n' :: (indentChars d ++ '}' :: rest)) := by
        rw [parseValue_congr f (skipWs_cons_ws (by decide) _)]
        exact hval
      have hsk2 : skipWs (':' :: ' ' :: (renderV (d + 1) v ++
              '\n' :: (indentChars d ++ '}' :: rest)))
          = ':' :: ' ' :: (renderV (d + 1) v ++
              '\n' :: (indentChars d ++ '}' :: rest)) := skipWs_cons_not _ (by decide)
      have hsk3 : skipWs ('\n' :: (indentChars d ++ '}' :: rest)) = '}' :: rest := by
        rw [skipWs_cons_ws (by decide)]
        exact skipWs_indent_cons _ _ (by decide)
      simp [hkey, hsk2, hpv, hsk3]
  | k, v, .cons k2 v2 ms2, hwf, f, hf, d, rest => by
    cases f with
    | zero => simp [needM] at hf
    | succ f =>
      simp only [wfM, Bool.and_eq_true] at hwf
      obtain ⟨⟨hwk, hwv⟩, hwms⟩ := hwf
      have hfv : needV v ≤ f ∧ needM (.cons k2 v2 ms2) ≤ f := by
        simp only [needM] at hf
        omega
      have hval := renderV_rt v hwv f hfv.1 (d + 1)
        (',' :: '\n' :: (renderM (d + 1) (.cons k2 v2 ms2) ++
          '\n' :: (indentChars d ++ '}' :: rest))) (numBoundary_cons (by decide) _)
      have hrec := renderM_rt k2 v2 ms2 (by simpa [wfM] using hwms) f hfv.2 d rest
      have hkey := parseStrBody_complete k
        (':' :: ' ' :: (renderV (d + 1) v ++ ',' :: '\n' ::
          (renderM (d + 1) (.cons k2 v2 ms2) ++
            '\n' :: (indentChars d ++ '}' :: rest)))) hwk
      simp only [renderM, parseMembers, List.append_assoc, List.cons_append]
      rw [skipWs_indent_cons _ _ (by decide)]
      have hpv : parseValue f (' ' :: (renderV (d + 1) v ++ ',' :: '\n' ::
              (renderM (d + 1) (.cons k2 v2 ms2) ++
                '\n' :: (indentChars d ++ '}' :: rest))))
          = some (v, ',' :: '\n' :: (renderM (d + 1) (.cons k2 v2 ms2) ++
              '\n' :: (indentChars d ++ '}' :: rest))) := by
        rw [parseValue_congr f (skipWs_cons_ws (by decide) _)]
        exact hval
      have hpm : parseMembers f ('\n' :: (renderM (d + 1) (.cons k2 v2 ms2) ++
              '\n' :: (indentChars d ++ '}' :: rest)))
          = some (JMembers.cons k2 v2 ms2, rest) := by
        rw [parseMembers_congr f (skipWs_cons_ws (by decide) _)]
        exact hrec
      have hsk2 : skipWs (':' :: ' ' :: (renderV (d + 1) v ++ ',' :: '\n' ::
              (renderM (d + 1) (.cons k2 v2 ms2) ++
                '\n' :: (indentChars d ++ '}' :: rest))))
          = ':' :: ' ' :: (renderV (d + 1) v ++ ',' :: '\n' ::
              (renderM (d + 1) (.cons k2 v2 ms2) ++
                '\n' :: (indentChars d ++ '}' :: rest))) := skipWs_cons_not _ (by decide)
      have hsk4 : skipWs (',' :: '\n' :: (renderM (d + 1) (.cons k2 v2 ms2) ++
              '\n' :: (indentChars d ++ '}' :: rest)))
          = ',' :: '\n' :: (renderM (d + 1) (.cons k2 v2 ms2) ++
              '\n' :: (indentChars d ++ '}' :: rest)) := skipWs_cons_not _ (by decide)
      simp [hkey, hsk2, hpv, hsk4, hpm]
  termination_by _ v ms => 1 + sizeOf v + sizeOf ms
  decreasing_by all_goals (simp <;> omega)

theorem renderE_rt : ∀ (v : JValue) (es : JElems),
    wfE (.cons v es) = true → ∀ (f : Nat), needE (.cons v es) ≤ f →
    ∀ (d : Nat) (rest : List Char),
    parseElems f (renderE (d + 1) (.cons v es) ++
        '\n' :: (indentChars d ++ ']' :: rest))
      = some (.cons v es, rest)
  | v, .nil, hwf, f, hf, d, rest => by
    cases f with
    | zero => simp [needE] at hf
    | succ f =>
      simp only [wfE, Bool.and_eq_true] at hwf
      obtain ⟨hwv, _⟩ := hwf
      have hfv : needV v ≤ f := by simp only [needE] at hf; omega
      have hval := renderV_rt v hwv f hfv (d + 1)
        ('\n' :: (indentChars d ++ ']' :: rest)) (numBoundary_cons (by decide) _)
      simp only [renderE, parseElems, List.append_assoc, List.cons_append]
      have hpv : parseValue f (indentChars (d + 1) ++ (renderV (d + 1) v ++
              '\n' :: (indentChars d ++ ']' :: rest)))
          = some (v, '\n' :: (indentChars d ++ ']' :: rest)) := by
        rw [parseValue_congr f (skipWs_append _ _ (indentChars_ws (d + 1)))]
        exact hval
      have hsk3 : skipWs ('\n' :: (indentChars d ++ ']' :: rest)) = ']' :: rest := by
        rw [skipWs_cons_ws (by decide)]
        exact skipWs_indent_cons _ _ (by decide)
      simp [hpv, hsk3]
  | v, .cons v2 es2, hwf, f, hf, d, rest => by
    cases f with
    | zero => simp [needE] at hf
    | succ f =>
      simp only [wfE, Bool.and_eq_true] at hwf
      obtain ⟨hwv, hwes⟩ := hwf
      have hfv : needV v ≤ f ∧ needE (.cons v2 es2) ≤ f := by
        simp only [needE] at hf
        omega
      have hval := renderV_rt v hwv f hfv.1 (d + 1)
        (',' :: '\n' :: (renderE (d + 1) (.cons v2 es2) ++
          '\n' :: (indentChars d ++ ']' :: rest))) (numBoundary_cons (by decide) _)
      have hrec := renderE_rt v2 es2 (by simpa [wfE] using hwes) f hfv.2 d rest
      simp only [renderE, parseElems, List.append_assoc, List.cons_append]
      have hpv : parseValue f (indentChars (d + 1) ++ (renderV (d + 1) v ++ ',' :: '\n' ::
              (renderE (d + 1) (.cons v2 es2) ++ '\n' :: (indentChars d ++ ']' :: rest))))
          = some (v, ',' :: '\n' :: (renderE (d + 1) (.cons v2 es2) ++
              '\n' :: (indentChars d ++ ']' :: rest))) := by
        rw [parseValue_congr f (skipWs_append _ _ (indentChars_ws (d + 1)))]
        exact hval
      have hpe : parseElems f ('\n' :: (renderE (d + 1) (.cons v2 es2) ++
              '\n' :: (indentChars d ++ ']' :: rest)))
          = some (JElems.cons v2 es2, rest) := by
        rw [parseElems_congr f (skipWs_cons_ws (by decide) _)]
        exact hrec
      have hsk4 : skipWs (',' :: '\n' :: (renderE (d + 1) (.cons v2 es2) ++
              '\n' :: (indentChars d ++ ']' :: rest)))
          = ',' :: '\n' :: (renderE (d + 1) (.cons v2 es2) ++
              '\n' :: (indentChars d ++ ']' :: rest)) := skipWs_cons_not _ (by decide)
      simp [hpv, hsk4, hpe]
  termination_by v es => 1 + sizeOf v + sizeOf es
  decreasing_by all_goals (simp <;> omega)

end

/-- Re-reading the indented text of a well-formed document yields the same
document: the indented form preserves key order and value structure. -/
theorem parseJson_render (v : JValue) (hwf : wfV v = true) :
    parseJson (renderIndent v) = some v := by
  have h := renderV_rt v hwf ((renderV 0 v).length + 1)
    (needV_le 0 v) 0 [] rfl
  rw [List.append_nil] at h
  unfold parseJson renderIndent
  rw [h]
  simp [skipWs]

/-! ## The embedded walk agrees with the spec-side navigation -/

theorem fastjsonGet_none (ks : List (List Char)) : fastjsonGet none ks = none := by
  induction ks with
  | nil => rfl
  | cons k ks ih =>
    simp only [fastjsonGet, List.foldl_cons, fastjsonGetStep]
    exact ih

theorem GetStringBytes_eq_specNavigate : ∀ (ks : List (List Char)) (v : JValue),
    GetStringBytes (some v) ks = specNavigate v ks := by
  intro ks
  induction ks with
  | nil =>
    intro v
    cases v <;> simp [GetStringBytes, fastjsonGet, specNavigate]
  | cons k ks ih =>
    intro v
    cases v with
    | obj ms =>
      simp only [GetStringBytes, fastjsonGet, List.foldl_cons, fastjsonGetStep, specNavigate]
      cases hm : membersGet ms k with
      | none => simp [show List.foldl fastjsonGetStep none ks = none from fastjsonGet_none ks]
      | some v2 => exact ih v2
    | arr es =>
      simp only [GetStringBytes, fastjsonGet, List.foldl_cons, fastjsonGetStep, specNavigate]
      cases ha : atoi k with
      | none => simp [show List.foldl fastjsonGetStep none ks = none from fastjsonGet_none ks]
      | some n =>
        by_cases hn : n < 0
        · simp [hn, show List.foldl fastjsonGetStep none ks = none from fastjsonGet_none ks]
        · simp only [hn, if_false]
          cases he : elemsGet es n.toNat with
          | none => simp [show List.foldl fastjsonGetStep none ks = none from fastjsonGet_none ks]
          | some v2 => exact ih v2
    | str raw =>
      simp only [GetStringBytes, fastjsonGet, List.foldl_cons, fastjsonGetStep, specNavigate]
      simp [show List.foldl fastjsonGetStep none ks = none from fastjsonGet_none ks]
    | num raw =>
      simp only [GetStringBytes, fastjsonGet, List.foldl_cons, fastjsonGetStep, specNavigate]
      simp [show List.foldl fastjsonGetStep none ks = none from fastjsonGet_none ks]
    | bool b =>
      simp only [GetStringBytes, fastjsonGet, List.foldl_cons, fastjsonGetStep, specNavigate]
      simp [show List.foldl fastjsonGetStep none ks = none from fastjsonGet_none ks]
    | null =>
      simp only [GetStringBytes, fastjsonGet, List.foldl_cons, fastjsonGetStep, specNavigate]
      simp [show List.foldl fastjsonGetStep none ks = none from fastjsonGet_none ks]

/-! ## Frame lemmas for the extraction step -/

theorem decodeCache_buf (ctx : pluginContext) (e : Nat) (data : List Char) :
    (decodeCache ctx e data).ctx.buf = ctx.buf := by
  unfold decodeCache
  split
  · split <;> rfl
  · rfl

theorem decodeCache_lastError (ctx : pluginContext) (e : Nat) (data : List Char) :
    (decodeCache ctx e data).ctx.lastError = ctx.lastError := by
  unfold decodeCache
  split
  · split <;> rfl
  · rfl

theorem decodeCache_attempted (ctx : pluginContext) (e : Nat) (data : List Char) :
    (decodeCache ctx e data).attempted = true ↔ e ≠ ctx.jdataEvtnum := by
  unfold decodeCache
  split
  · split <;> simp_all
  · simp_all

theorem decodeCache_succeeded (ctx : pluginContext) (e : Nat) (data : List Char)
    (h : (decodeCache ctx e data).succeeded = true) :
    (decodeCache ctx e data).ctx.jdataEvtnum = e := by
  unfold decodeCache at h ⊢
  split at h
  · split at h
    · simp at h
    · simp_all
  · simp at h

/-- The switch phase of `plugin_extract_str` only writes the output buffer:
the cache fields and the error field come out of the decode-cache block
unchanged, and the instrumentation flags are those of that block. -/
theorem extract_frame (ctx : pluginContext) (e id : Nat) (arg data : List Char) :
    (plugin_extract_str ctx e id arg data).ctx.jdata = (decodeCache ctx e data).ctx.jdata ∧
    (plugin_extract_str ctx e id arg data).ctx.jdataEvtnum
      = (decodeCache ctx e data).ctx.jdataEvtnum ∧
    (plugin_extract_str ctx e id arg data).ctx.lastError
      = (decodeCache ctx e data).ctx.lastError ∧
    (plugin_extract_str ctx e id arg data).parseAttempted = (decodeCache ctx e data).attempted ∧
    (plugin_extract_str ctx e id arg data).parseSucceeded
      = (decodeCache ctx e data).succeeded := by
  simp only [plugin_extract_str]
  split_ifs <;> (try split) <;> (try split) <;> simp [publishBuffer]

theorem decodeCache_succeeded_ne (ctx : pluginContext) (e : Nat) (data : List Char)
    (h : (decodeCache ctx e data).succeeded = true) : e ≠ ctx.jdataEvtnum := by
  unfold decodeCache at h
  split at h
  · assumption
  · simp at h

theorem extract_lastError (ctx : pluginContext) (e id : Nat) (arg data : List Char) :
    (plugin_extract_str ctx e id arg data).ctx.lastError = ctx.lastError := by
  have h := (extract_frame ctx e id arg data).2.2.1
  rw [h, decodeCache_lastError]

/-! ## The claims -/

/-- Claim C1, counterexample: the claim says that whenever an intermediate
value on the path is not a JSON object the result is absent; but on the
document `{"a":["x"]}` with path `/a/0` the walk enters the array at
decimal index 0 and publishes the string `x` through the buffer, returning
the buffer handle rather than absent. -/
theorem claim_C1_counterexample :
    (plugin_extract_str initialContext 1 FieldIDValue (("/a/0" : String).data)
        (("\x7b\"a\":[\"x\"]\x7d" : String).data)).out = ExtractOut.bufferHandle ∧
    (plugin_extract_str initialContext 1 FieldIDValue (("/a/0" : String).data)
        (("\x7b\"a\":[\"x\"]\x7d" : String).data)).ctx.buf = 'x' :: [nulChar] :=
  ⟨rfl, rfl⟩

/-- Claim C1, amended: for every cached parsed document and every
non-empty path argument, extraction strips an optional leading `/`, splits
the remainder on `/`, and walks the tree — at an object following the
first member whose key equals the segment, at an array following the
element at the segment read as a decimal index — publishing the terminal
value when it is a string and returning the null handle (never an error)
otherwise.  The walk is stated through `specNavigate`, the spec-side
navigation definition. -/
theorem claim_C1_amended (ctx : pluginContext) (e : Nat) (a0 : Char) (args data : List Char)
    (v : JValue) (hok : (decodeCache ctx e data).ok = true)
    (hd : (decodeCache ctx e data).ctx.jdata = some v) :
    ((plugin_extract_str ctx e FieldIDValue (a0 :: args) data).out ≠ ExtractOut.crash) ∧
    (∀ s, specNavigate v (splitSlash (if a0 = '/' then args else a0 :: args)) = some s →
      (plugin_extract_str ctx e FieldIDValue (a0 :: args) data).out = ExtractOut.bufferHandle ∧
      (plugin_extract_str ctx e FieldIDValue (a0 :: args) data).ctx.buf = s ++ [nulChar]) ∧
    (specNavigate v (splitSlash (if a0 = '/' then args else a0 :: args)) = none →
      (plugin_extract_str ctx e FieldIDValue (a0 :: args) data).out = ExtractOut.nullHandle ∧
      (plugin_extract_str ctx e FieldIDValue (a0 :: args) data).ctx.buf = ctx.buf) := by
  have hnav := GetStringBytes_eq_specNavigate
    (splitSlash (if a0 = '/' then args else a0 :: args)) v
  refine ⟨?_, ?_, ?_⟩
  · cases hnv : specNavigate v (splitSlash (if a0 = '/' then args else a0 :: args)) with
    | none => simp [plugin_extract_str, hok, hd, hnav, hnv]
    | some s => simp [plugin_extract_str, hok, hd, hnav, hnv, publishBuffer]
  · intro s hs
    simp [plugin_extract_str, hok, hd, hnav, hs, publishBuffer]
  · intro hnv
    simp [plugin_extract_str, hok, hd, hnav, hnv, decodeCache_buf]

/-- Claim C1, witness: extracting `/a/b` from `{"a":{"b":"v"}}` publishes
`v`. -/
theorem claim_C1_witness :
    (plugin_extract_str initialContext 1 FieldIDValue (("/a/b" : String).data)
        (("\x7b\"a\":\x7b\"b\":\"v\"\x7d\x7d" : String).data)).out = ExtractOut.bufferHandle ∧
    (plugin_extract_str initialContext 1 FieldIDValue (("/a/b" : String).data)
        (("\x7b\"a\":\x7b\"b\":\"v\"\x7d\x7d" : String).data)).ctx.buf = ['v'] ++ [nulChar] :=
  (claim_C1_amended initialContext 1 '/' (("a/b" : String).data)
      (("\x7b\"a\":\x7b\"b\":\"v\"\x7d\x7d" : String).data)
      (.obj (.cons ['a'] (.obj (.cons ['b'] (.str ['v']) .nil)) .nil))
      (by rfl) (by rfl)).2.1 ['v'] (by rfl)

/-- Claim C2: over two consecutive extraction calls with the same event
number, the document is successfully parsed at most once (and after a
successful parse the second call does not even attempt one), while
whenever the event number differs from the cached one a fresh parse
attempt occurs regardless of the raw bytes — in particular even when they
are byte-identical to previously parsed bytes. -/
theorem claim_C2 (ctx : pluginContext) (e id1 id2 : Nat)
    (arg1 data1 arg2 data2 : List Char) :
    (¬((plugin_extract_str ctx e id1 arg1 data1).parseSucceeded = true ∧
       (plugin_extract_str (plugin_extract_str ctx e id1 arg1 data1).ctx
          e id2 arg2 data2).parseSucceeded = true)) ∧
    ((plugin_extract_str ctx e id1 arg1 data1).parseSucceeded = true →
      (plugin_extract_str (plugin_extract_str ctx e id1 arg1 data1).ctx
          e id2 arg2 data2).parseAttempted = false) ∧
    (e ≠ ctx.jdataEvtnum →
      (plugin_extract_str ctx e id1 arg1 data1).parseAttempted = true) := by
  obtain ⟨hj1, he1, hl1, ha1, hs1⟩ := extract_frame ctx e id1 arg1 data1
  obtain ⟨hj2, he2, hl2, ha2, hs2⟩ :=
    extract_frame (plugin_extract_str ctx e id1 arg1 data1).ctx e id2 arg2 data2
  have hkey : (plugin_extract_str ctx e id1 arg1 data1).parseSucceeded = true →
      (plugin_extract_str (plugin_extract_str ctx e id1 arg1 data1).ctx
        e id2 arg2 data2).parseAttempted = false := by
    intro h1
    rw [hs1] at h1
    have hev : (plugin_extract_str ctx e id1 arg1 data1).ctx.jdataEvtnum = e := by
      rw [he1]
      exact decodeCache_succeeded _ _ _ h1
    rw [ha2]
    cases hatt : (decodeCache (plugin_extract_str ctx e id1 arg1 data1).ctx e data2).attempted with
    | false => rfl
    | true =>
      exact absurd hev.symm ((decodeCache_attempted _ _ _).mp hatt)
  refine ⟨?_, hkey, ?_⟩
  · rintro ⟨h1, h2⟩
    rw [hs2] at h2
    have hne := decodeCache_succeeded_ne _ _ _ h2
    have hev : (plugin_extract_str ctx e id1 arg1 data1).ctx.jdataEvtnum = e := by
      rw [he1]
      rw [hs1] at h1
      exact decodeCache_succeeded _ _ _ h1
    exact hne (by rw [hev])
  · intro hne
    rw [ha1]
    exact (decodeCache_attempted ctx e data1).mpr hne

/-- Claim C2, witness: a first call for event 1 with fresh bytes attempts
a parse, and the second call for the same event does not. -/
theorem claim_C2_witness :
    (plugin_extract_str initialContext 1 FieldIDValue (("/a" : String).data)
        (("\x7b\"a\":\"b\"\x7d" : String).data)).parseAttempted = true ∧
    (plugin_extract_str
        (plugin_extract_str initialContext 1 FieldIDValue (("/a" : String).data)
          (("\x7b\"a\":\"b\"\x7d" : String).data)).ctx
        1 FieldIDMsg [] (("\x7b\"a\":\"b\"\x7d" : String).data)).parseAttempted = false :=
  ⟨(claim_C2 initialContext 1 FieldIDValue FieldIDMsg (("/a" : String).data)
      (("\x7b\"a\":\"b\"\x7d" : String).data) []
      (("\x7b\"a\":\"b\"\x7d" : String).data)).2.2 (by decide),
   (claim_C2 initialContext 1 FieldIDValue FieldIDMsg (("/a" : String).data)
      (("\x7b\"a\":\"b\"\x7d" : String).data) []
      (("\x7b\"a\":\"b\"\x7d" : String).data)).2.1 (by rfl)⟩

/-- Claim C3, counterexample: the claim says a failing parse leaves the
previously parsed document untouched; but after caching the document of
event 1, a call for event 2 with unparseable bytes overwrites the cached
document pointer with nil (the Go multiple assignment
`pCtx.jdata, err = pCtx.jparser.Parse(...)`), while the cached event
number still says 1. -/
theorem claim_C3_counterexample :
    ((plugin_extract_str initialContext 1 FieldIDValue (("/a" : String).data)
        (("\x7b\"a\":\"b\"\x7d" : String).data)).ctx.jdata).isSome = true ∧
    ((plugin_extract_str
        (plugin_extract_str initialContext 1 FieldIDValue (("/a" : String).data)
          (("\x7b\"a\":\"b\"\x7d" : String).data)).ctx
        2 FieldIDValue (("/a" : String).data) (("nope" : String).data)).ctx.jdata) = none ∧
    (plugin_extract_str
        (plugin_extract_str initialContext 1 FieldIDValue (("/a" : String).data)
          (("\x7b\"a\":\"b\"\x7d" : String).data)).ctx
        2 FieldIDValue (("/a" : String).data) (("nope" : String).data)).ctx.jdataEvtnum = 1 :=
  ⟨rfl, rfl, rfl⟩

/-- Claim C3, amended: on a parse failure the cached event number is not
advanced, the error field and the output buffer are untouched, and the
call returns the null handle without exposing a partial document — but the
cached document pointer itself is overwritten with nil, dropping the
previously parsed document. -/
theorem claim_C3_amended (ctx : pluginContext) (e id : Nat) (arg data : List Char)
    (h1 : e ≠ ctx.jdataEvtnum) (h2 : parseJson data = none) :
    (plugin_extract_str ctx e id arg data).ctx.jdataEvtnum = ctx.jdataEvtnum ∧
    (plugin_extract_str ctx e id arg data).ctx.jdata = none ∧
    (plugin_extract_str ctx e id arg data).ctx.lastError = ctx.lastError ∧
    (plugin_extract_str ctx e id arg data).ctx.buf = ctx.buf ∧
    (plugin_extract_str ctx e id arg data).out = ExtractOut.nullHandle := by
  have hc : decodeCache ctx e data = ⟨{ ctx with jdata := none }, false, true, false⟩ := by
    simp [decodeCache, h1, h2]
  simp [plugin_extract_str, hc]

/-- Claim C3, witness: a failing parse for event 1 on the initial context
keeps event number 0, drops the document, and returns the null handle. -/
theorem claim_C3_witness :
    (plugin_extract_str initialContext 1 FieldIDValue (("/a" : String).data)
        (("nope" : String).data)).ctx.jdataEvtnum = initialContext.jdataEvtnum ∧
    (plugin_extract_str initialContext 1 FieldIDValue (("/a" : String).data)
        (("nope" : String).data)).ctx.jdata = none ∧
    (plugin_extract_str initialContext 1 FieldIDValue (("/a" : String).data)
        (("nope" : String).data)).ctx.lastError = initialContext.lastError ∧
    (plugin_extract_str initialContext 1 FieldIDValue (("/a" : String).data)
        (("nope" : String).data)).ctx.buf = initialContext.buf ∧
    (plugin_extract_str initialContext 1 FieldIDValue (("/a" : String).data)
        (("nope" : String).data)).out = ExtractOut.nullHandle :=
  claim_C3_amended initialContext 1 FieldIDValue (("/a" : String).data)
    (("nope" : String).data) (by decide) (by rfl)

/-- Claim C4: an extraction call that yields absent — a failing initial
parse, a path that does not resolve to a string, or an impossible
pretty-print — writes nothing to the output buffer and returns the null
handle instead of a buffer address. -/
theorem claim_C4 (ctx : pluginContext) (e id : Nat) (arg data : List Char) :
    ((decodeCache ctx e data).ok = false →
      (plugin_extract_str ctx e id arg data).out = ExtractOut.nullHandle ∧
      (plugin_extract_str ctx e id arg data).ctx.buf = ctx.buf) ∧
    (id = FieldIDValue → ∀ (a0 : Char) (args : List Char), arg = a0 :: args →
      GetStringBytes (decodeCache ctx e data).ctx.jdata
        (splitSlash (if a0 = '/' then args else a0 :: args)) = none →
      (plugin_extract_str ctx e id arg data).out = ExtractOut.nullHandle ∧
      (plugin_extract_str ctx e id arg data).ctx.buf = ctx.buf) ∧
    (id = FieldIDMsg → jsonIndent data = none →
      (plugin_extract_str ctx e id arg data).out = ExtractOut.nullHandle ∧
      (plugin_extract_str ctx e id arg data).ctx.buf = ctx.buf) := by
  refine ⟨?_, ?_, ?_⟩
  · intro hok
    simp [plugin_extract_str, hok, decodeCache_buf]
  · rintro rfl a0 args rfl hnav
    by_cases hok : (decodeCache ctx e data).ok = false
    · simp [plugin_extract_str, hok, decodeCache_buf]
    · have hok' : (decodeCache ctx e data).ok = true := by
        revert hok
        cases (decodeCache ctx e data).ok <;> simp
      simp [plugin_extract_str, hok', hnav, decodeCache_buf]
  · rintro rfl hind
    by_cases hok : (decodeCache ctx e data).ok = false
    · simp [plugin_extract_str, hok, decodeCache_buf]
    · have hok' : (decodeCache ctx e data).ok = true := by
        revert hok
        cases (decodeCache ctx e data).ok <;> simp
      simp [plugin_extract_str, hok', hind, decodeCache_buf, FieldIDMsg, FieldIDValue]

/-- Claim C4, witness: unparseable bytes yield the null handle and leave
the buffer alone. -/
theorem claim_C4_witness :
    (plugin_extract_str initialContext 1 FieldIDValue (("/a" : String).data)
        (("not json" : String).data)).out = ExtractOut.nullHandle ∧
    (plugin_extract_str initialContext 1 FieldIDValue (("/a" : String).data)
        (("not json" : String).data)).ctx.buf = initialContext.buf :=
  (claim_C4 initialContext 1 FieldIDValue (("/a" : String).data)
      (("not json" : String).data)).1 (by rfl)

/-- Claim C5: the full-document field re-serialises the raw bytes of the
call as indented JSON with a fixed two-space indent, preserving key order
and value structure (re-reading the published text yields the same parsed
tree), and yields absent — with no crash and no buffer write — when the
bytes are not valid JSON. -/
theorem claim_C5 (ctx : pluginContext) (e : Nat) (arg data : List Char) :
    (parseJson data = none →
      (plugin_extract_str ctx e FieldIDMsg arg data).out = ExtractOut.nullHandle ∧
      (plugin_extract_str ctx e FieldIDMsg arg data).ctx.buf = ctx.buf) ∧
    (∀ v, parseJson data = some v →
      (plugin_extract_str ctx e FieldIDMsg arg data).out = ExtractOut.bufferHandle ∧
      (plugin_extract_str ctx e FieldIDMsg arg data).ctx.buf = renderIndent v ++ [nulChar] ∧
      parseJson (renderIndent v) = some v) := by
  constructor
  · intro hp
    by_cases he : e = ctx.jdataEvtnum
    · have hc : decodeCache ctx e data = ⟨ctx, true, false, false⟩ := by
        simp [decodeCache, he]
      simp [plugin_extract_str, hc, FieldIDMsg, FieldIDValue, jsonIndent, hp]
    · have hc : decodeCache ctx e data = ⟨{ ctx with jdata := none }, false, true, false⟩ := by
        simp [decodeCache, he, hp]
      simp [plugin_extract_str, hc]
  · intro v hp
    have hwf := parseJson_wf hp
    have hrt := parseJson_render v hwf
    by_cases he : e = ctx.jdataEvtnum
    · have hc : decodeCache ctx e data = ⟨ctx, true, false, false⟩ := by
        simp [decodeCache, he]
      simp [plugin_extract_str, hc, FieldIDMsg, FieldIDValue, jsonIndent, hp,
        publishBuffer, hrt]
    · have hc : decodeCache ctx e data
          = ⟨{ ctx with jdata := some v, jdataEvtnum := e }, true, true, true⟩ := by
        simp [decodeCache, he, hp]
      simp [plugin_extract_str, hc, FieldIDMsg, FieldIDValue, jsonIndent, hp,
        publishBuffer, hrt]

/-- Claim C5, witness: `{"a":1}` is published as the two-space indented
text, and re-reading that text gives the same document. -/
theorem claim_C5_witness :
    (plugin_extract_str initialContext 1 FieldIDMsg [] (("\x7b\"a\":1\x7d" : String).data)).out
      = ExtractOut.bufferHandle ∧
    (plugin_extract_str initialContext 1 FieldIDMsg []
        (("\x7b\"a\":1\x7d" : String).data)).ctx.buf
      = renderIndent (.obj (.cons ['a'] (.num ['1']) .nil)) ++ [nulChar] ∧
    parseJson (renderIndent (.obj (.cons ['a'] (.num ['1']) .nil)))
      = some (.obj (.cons ['a'] (.num ['1']) .nil)) :=
  (claim_C5 initialContext 1 [] (("\x7b\"a\":1\x7d" : String).data)).2
    (.obj (.cons ['a'] (.num ['1']) .nil)) (by rfl)

/-- Claim C6, code bug, evaluated at the failing input: on the very first
call, for an event whose number equals the zero-initialised sentinel, the
code skips parsing (no parse attempt) and navigates the nil document,
returning the null handle — even though the raw bytes parse fine and the
requested path holds the string `b`.  The claim (and the spec's cache
contract) requires a parsed document to be present before reuse. -/
theorem claim_C6_bug :
    (plugin_extract_str initialContext 0 FieldIDValue (("/a" : String).data)
        (("\x7b\"a\":\"b\"\x7d" : String).data)).parseAttempted = false ∧
    (plugin_extract_str initialContext 0 FieldIDValue (("/a" : String).data)
        (("\x7b\"a\":\"b\"\x7d" : String).data)).out = ExtractOut.nullHandle ∧
    initialContext.jdata = none ∧
    initialContext.jdataEvtnum = 0 ∧
    GetStringBytes (parseJson (("\x7b\"a\":\"b\"\x7d" : String).data))
        (splitSlash (("a" : String).data)) = some (("b" : String).data) :=
  ⟨rfl, rfl, rfl, rfl, rfl⟩

/-- Claim C7, counterexample: the claim says extraction completes without
crashing for every path argument including the empty string; but the
empty argument makes `sarg[0]` index an empty Go string, a runtime
panic. -/
theorem claim_C7_counterexample :
    (plugin_extract_str initialContext 1 FieldIDValue []
        (("\x7b\x7d" : String).data)).out = ExtractOut.crash :=
  rfl

/-- Claim C7, amended: for every non-empty path argument the path-value
extraction completes without crashing; the argument `/` degenerates to a
single empty-string segment, and an empty segment is a literal key lookup
on the current object, not skipped. -/
theorem claim_C7_amended (ctx : pluginContext) (e : Nat) (a0 : Char) (args data : List Char) :
    ((plugin_extract_str ctx e FieldIDValue (a0 :: args) data).out ≠ ExtractOut.crash) ∧
    argSegments ['/'] = [[]] ∧
    (∀ (ms : JMembers) (ks : List (List Char)),
      fastjsonGet (some (.obj ms)) ([] :: ks) = fastjsonGet (membersGet ms []) ks) := by
  refine ⟨?_, rfl, fun ms ks => rfl⟩
  by_cases hok : (decodeCache ctx e data).ok = false
  · simp [plugin_extract_str, hok]
  · have hok' : (decodeCache ctx e data).ok = true := by
      revert hok
      cases (decodeCache ctx e data).ok <;> simp
    cases hnav : GetStringBytes (decodeCache ctx e data).ctx.jdata
        (splitSlash (if a0 = '/' then args else a0 :: args)) with
    | none => simp [plugin_extract_str, hok', hnav]
    | some s => simp [plugin_extract_str, hok', hnav, publishBuffer]

/-- Claim C7, witness: the one-character argument `/` resolves to the
empty-string segment and completes without crashing. -/
theorem claim_C7_witness :
    (plugin_extract_str initialContext 1 FieldIDValue ['/']
        (("\x7b\x7d" : String).data)).out ≠ ExtractOut.crash ∧
    argSegments ['/'] = [[]] :=
  ⟨(claim_C7_amended initialContext 1 '/' [] (("\x7b\x7d" : String).data)).1,
   (claim_C7_amended initialContext 1 '/' [] (("\x7b\x7d" : String).data)).2.1⟩

/-- Claim C8, counterexample: the claim says a full-document request never
consults or modifies the decode cache; but a `jevt.json` request for a new
event number runs the shared decode-cache block first — it attempts a
parse and replaces the cached event number (and document). -/
theorem claim_C8_counterexample :
    (plugin_extract_str initialContext 2 FieldIDMsg []
        (("\x7b\"b\":\"c\"\x7d" : String).data)).parseAttempted = true ∧
    (plugin_extract_str initialContext 2 FieldIDMsg []
        (("\x7b\"b\":\"c\"\x7d" : String).data)).ctx.jdataEvtnum = 2 ∧
    initialContext.jdataEvtnum = 0 :=
  ⟨rfl, rfl, rfl⟩

/-- Claim C8, amended: a full-document request goes through the decode
cache exactly like any other request — its cache fields afterwards are
those produced by the decode-cache block, and a parse is attempted
precisely when the event number differs from the cached one — while the
formatter output itself is computed from the call's raw bytes. -/
theorem claim_C8_amended (ctx : pluginContext) (e : Nat) (arg data : List Char) :
    (plugin_extract_str ctx e FieldIDMsg arg data).ctx.jdata
      = (decodeCache ctx e data).ctx.jdata ∧
    (plugin_extract_str ctx e FieldIDMsg arg data).ctx.jdataEvtnum
      = (decodeCache ctx e data).ctx.jdataEvtnum ∧
    (plugin_extract_str ctx e FieldIDMsg arg data).parseAttempted
      = (decodeCache ctx e data).attempted ∧
    ((decodeCache ctx e data).attempted = true ↔ e ≠ ctx.jdataEvtnum) ∧
    ((decodeCache ctx e data).ok = true →
      (plugin_extract_str ctx e FieldIDMsg arg data).out
        = match jsonIndent data with
          | some _ => ExtractOut.bufferHandle
          | none => ExtractOut.nullHandle) := by
  obtain ⟨hj, he, hl, ha, hs⟩ := extract_frame ctx e FieldIDMsg arg data
  refine ⟨hj, he, ha, decodeCache_attempted ctx e data, ?_⟩
  intro hok
  cases hind : jsonIndent data with
  | none => simp [plugin_extract_str, hok, hind, FieldIDMsg, FieldIDValue]
  | some s => simp [plugin_extract_str, hok, hind, FieldIDMsg, FieldIDValue, publishBuffer]

/-- Claim C8, witness: a cached-event `jevt.json` call attempts no parse
and publishes the indented document. -/
theorem claim_C8_witness :
    (plugin_extract_str initialContext 0 FieldIDMsg []
        (("\x7b\"b\":\"c\"\x7d" : String).data)).parseAttempted
      = (decodeCache initialContext 0 (("\x7b\"b\":\"c\"\x7d" : String).data)).attempted ∧
    (plugin_extract_str initialContext 0 FieldIDMsg []
        (("\x7b\"b\":\"c\"\x7d" : String).data)).out = ExtractOut.bufferHandle :=
  ⟨(claim_C8_amended initialContext 0 [] (("\x7b\"b\":\"c\"\x7d" : String).data)).2.2.1,
   (claim_C8_amended initialContext 0 [] (("\x7b\"b\":\"c\"\x7d" : String).data)).2.2.2.2
     (by rfl)⟩

/-- Claim C9, counterexample: the claim says a failing extraction call
leaves a diagnostic that `plugin_get_last_error` then returns; but a
failing parse stores nothing — the error field stays nil and the query
answers the fixed text `no error`. -/
theorem claim_C9_counterexample :
    (plugin_extract_str initialContext 1 FieldIDValue (("/a" : String).data)
        (("nope" : String).data)).out = ExtractOut.nullHandle ∧
    (plugin_extract_str initialContext 1 FieldIDValue (("/a" : String).data)
        (("nope" : String).data)).parseAttempted = true ∧
    (plugin_extract_str initialContext 1 FieldIDValue (("/a" : String).data)
        (("nope" : String).data)).parseSucceeded = false ∧
    (plugin_extract_str initialContext 1 FieldIDValue (("/a" : String).data)
        (("nope" : String).data)).ctx.lastError = none ∧
    plugin_get_last_error
      (plugin_extract_str initialContext 1 FieldIDValue (("/a" : String).data)
        (("nope" : String).data)).ctx = (("no error" : String).data) :=
  ⟨rfl, rfl, rfl, rfl, rfl⟩

/-- Claim C9, amended: extraction calls never record a diagnostic — after
any sequence of extraction calls from initialisation the error field is
still nil and `plugin_get_last_error` returns the literal `no error`. -/
theorem claim_C9_amended (calls : List (Nat × Nat × List Char × List Char)) :
    (runCalls initialContext calls).lastError = none ∧
    plugin_get_last_error (runCalls initialContext calls) = (("no error" : String).data) := by
  have key : ∀ (cs : List (Nat × Nat × List Char × List Char)) (ctx : pluginContext),
      (runCalls ctx cs).lastError = ctx.lastError := by
    intro cs
    induction cs with
    | nil => intro ctx; rfl
    | cons p rest ih =>
      intro ctx
      obtain ⟨e, id, arg, data⟩ := p
      simp only [runCalls]
      rw [ih, extract_lastError]
  constructor
  · exact (key calls initialContext).trans rfl
  · unfold plugin_get_last_error
    rw [key calls initialContext]
    rfl

/-- Claim C10: a call with a field identifier that is neither the
path-value field 0 nor the full-document field 1, whose raw bytes parse as
JSON, publishes the literal text `<NA>` through the output buffer and
returns the buffer handle rather than the null handle. -/
theorem claim_C10 (ctx : pluginContext) (e id : Nat) (arg data : List Char)
    (h1 : id ≠ FieldIDValue) (h2 : id ≠ FieldIDMsg)
    (h3 : (parseJson data).isSome = true) :
    (plugin_extract_str ctx e id arg data).out = ExtractOut.bufferHandle ∧
    (plugin_extract_str ctx e id arg data).ctx.buf = naText ++ [nulChar] := by
  by_cases he : e = ctx.jdataEvtnum
  · have hc : decodeCache ctx e data = ⟨ctx, true, false, false⟩ := by
      simp [decodeCache, he]
    simp [plugin_extract_str, hc, h1, h2, publishBuffer]
  · obtain ⟨v, hv⟩ := Option.isSome_iff_exists.mp h3
    have hc : decodeCache ctx e data
        = ⟨{ ctx with jdata := some v, jdataEvtnum := e }, true, true, true⟩ := by
      simp [decodeCache, he, hv]
    simp [plugin_extract_str, hc, h1, h2, publishBuffer]

/-- Claim C10, witness: field id 5 on a valid document publishes `<NA>`. -/
theorem claim_C10_witness :
    (plugin_extract_str initialContext 1 5 [] (("\x7b\x7d" : String).data)).out
      = ExtractOut.bufferHandle ∧
    (plugin_extract_str initialContext 1 5 [] (("\x7b\x7d" : String).data)).ctx.buf
      = naText ++ [nulChar] :=
  claim_C10 initialContext 1 5 [] (("\x7b\x7d" : String).data)
    (by decide) (by decide) (by rfl)
